import Mathlib

/-!
Verification of the npm dependency-tree reducer (build/utils/npm.go).

The Go source is shallowly embedded: JSON decoding and subprocess or
filesystem calls are externalized (nodes arrive pre-decoded, collaborator
results arrive as oracle inputs), while every piece of reduction logic in
the file (tree walk, duplicate merge, scope union, skip classification,
version-prefix handling) is translated verbatim into executable Lean
definitions below.
-/

set_option maxHeartbeats 1000000

namespace BuildInfoNpm

/-- Modelled from the spec: entities.Dependency, the output contract of the
assembler (id, scopes, requestedBy paths, md5/sha1/sha256 checksums). The
entities package is outside the given source file; only the fields used by
npm.go are modelled. -/
structure Dependency where
  Id : String
  Scopes : List String
  RequestedBy : List (List String)
  Md5 : String
  Sha1 : String
  Sha256 : String
  deriving DecidableEq

/-- npm >= 7 ls result for a single dependency (struct npmLsDependency).
Problems is an Option to distinguish a JSON-absent list (Go nil slice,
none) from a present empty list (some []). PeerMissing is interface\x7b\x7d in
Go; npm.go only ever tests it against nil, so presence is what matters. -/
structure npmLsDependency where
  Name : String
  Version : String
  Integrity : String
  InBundle : Bool
  Dev : Bool
  Optional : Bool
  Missing : Bool
  Problems : Option (List String)
  PeerMissing : Option Unit
  deriving DecidableEq

/-- npm 6 ls result for a single dependency (struct legacyNpmLsDependency). -/
structure legacyNpmLsDependency where
  Name : String
  Version : String
  Missing : Bool
  Integrity : String
  InBundle : Bool
  Dev : Bool
  InnerOptional : Bool
  Optional : Bool
  PeerMissing : Option Unit
  deriving DecidableEq

/-- Method optional() of legacyNpmLsDependency. -/
def legacyNpmLsDependency.optional (lnld : legacyNpmLsDependency) : Bool :=
  if lnld.Optional then true else lnld.InnerOptional

/-- Method toNpmLsDependency() of legacyNpmLsDependency: normalize the legacy
shape into the canonical npmLsDependency shape. The legacy struct has no
Problems field, so the Go zero value (nil slice, here none) is used. -/
def legacyNpmLsDependency.toNpmLsDependency (lnld : legacyNpmLsDependency) : npmLsDependency :=
  { Name := lnld.Name
    Version := lnld.Version
    Integrity := lnld.Integrity
    InBundle := lnld.InBundle
    Dev := lnld.Dev
    Optional := lnld.optional
    Missing := lnld.Missing
    Problems := none
    PeerMissing := lnld.PeerMissing }

/-- Go strings.Split on a one-character separator: worker loop over the
characters, emitting the accumulated segment at each separator. -/
def splitCharAux (sep : Char) : List Char → List Char → List String
  | [], acc => [String.mk acc.reverse]
  | c :: cs, acc =>
      if c = sep then String.mk acc.reverse :: splitCharAux sep cs []
      else splitCharAux sep cs (c :: acc)

/-- Go strings.Split(s, sep) for a one-character separator. -/
def goSplit (s : String) (sep : Char) : List String := splitCharAux sep s.data []

/-- Go strings.HasPrefix(s, pre). -/
def goHasPfx (s pre : String) : Bool := pre.data.isPrefixOf s.data

/-- Go strings.TrimPrefix(s, pre): drop pre once when it leads s. -/
def goTrimPfx (s pre : String) : String :=
  if goHasPfx s pre then String.mk (s.data.drop pre.data.length) else s

/-- Go strings.Contains(s, sub) for a one-character substring. -/
def goContainsChar (s : String) (c : Char) : Bool := s.data.contains c

/-- Method id() of npmLsDependency: name:version. -/
def npmLsDependency.id (nld : npmLsDependency) : String :=
  nld.Name ++ ":" ++ nld.Version

/-- Method getScopes() of npmLsDependency: dev or prod label, plus the leading
segment of a scoped name when splitting on / yields more than two parts. -/
def npmLsDependency.getScopes (nld : npmLsDependency) : List String :=
  let scopes := if nld.Dev then ["dev"] else ["prod"]
  if goHasPfx nld.Name "@" then
    let splitValues := goSplit nld.Name '/'
    if splitValues.length > 2 then scopes ++ [splitValues.headD ""]
    else scopes
  else scopes

/-- One step of the appendScopes loop body. The Go code keeps a contained
set alongside the accumulator; since a scope is appended exactly when it is
new and non-empty, that set always equals the set of accumulator elements,
so membership in the accumulator is the same test. -/
def scopeStep (allScopes : List String) (scope : String) : List String :=
  if scope = "" then allScopes
  else if scope ∈ allScopes then allScopes
  else allScopes ++ [scope]

/-- Function appendScopes: merge two scope lists and remove duplicates and
empty strings, keeping first-seen order. -/
def appendScopes (oldScopes newScopes : List String) : List String :=
  (oldScopes ++ newScopes).foldl scopeStep []

/-- Struct dependencyInfo: an entities.Dependency together with the retained
raw npmLsDependency record (the Go struct embeds both; promoted field
Integrity resolves to the npmLsDependency field, which is the one npm.go
reads and writes). -/
structure dependencyInfo where
  Dependency : Dependency
  npmLsDependency : npmLsDependency
  deriving DecidableEq

/-- The canonical map (Go map[string]*dependencyInfo), as an association
list in insertion order; lookup is by key. -/
abbrev DepMap := List (String × dependencyInfo)

def mapLookup : DepMap → String → Option dependencyInfo
  | [], _ => none
  | (k, v) :: rest, key => if k = key then some v else mapLookup rest key

def mapUpdate (m : DepMap) (key : String) (f : dependencyInfo → dependencyInfo) : DepMap :=
  m.map (fun entry => if entry.1 = key then (entry.1, f entry.2) else entry)

/-- The fresh entry created by appendDependency on first encounter:
entities.Dependency with only Id set (Go zero values elsewhere) plus the
raw record. -/
def freshEntry (dep : npmLsDependency) : dependencyInfo :=
  { Dependency := { Id := dep.id, Scopes := [], RequestedBy := [], Md5 := "", Sha1 := "", Sha256 := "" }
    npmLsDependency := dep }

/-- The per-entry mutation appendDependency performs on the slot for dep.id:
backfill Integrity only if currently empty, union the scopes, append the
current path to RequestedBy. -/
def mergeInto (di : dependencyInfo) (dep : npmLsDependency) (pathToRoot : List String) : dependencyInfo :=
  let di :=
    if di.npmLsDependency.Integrity = "" then
      { di with npmLsDependency := { di.npmLsDependency with Integrity := dep.Integrity } }
    else di
  { di with
      Dependency :=
        { di.Dependency with
            Scopes := appendScopes di.Dependency.Scopes dep.getScopes
            RequestedBy := di.Dependency.RequestedBy ++ [pathToRoot] } }

/-- Function appendDependency: create the slot for dep.id if absent, then
apply the integrity backfill, scope union and path append to that slot. -/
def appendDependency (dependencies : DepMap) (dep : npmLsDependency) (pathToRoot : List String) : DepMap :=
  let depId := dep.id
  let dependencies :=
    if (mapLookup dependencies depId).isNone then dependencies ++ [(depId, freshEntry dep)]
    else dependencies
  mapUpdate dependencies depId (fun di => mergeInto di dep pathToRoot)

/-- One dependency-tree node as seen by parseDependencies, with JSON decoding
externalized: emptyObj is a body that is exactly the two bytes of an empty
object, badNode is a body the selected per-version decoder rejects, and
node carries the decoded record plus the entries of its nested
dependencies object (an absent or empty object is the empty list). -/
inductive NpmNode where
  | emptyObj : NpmNode
  | badNode (msg : String) : NpmNode
  | node (dep : npmLsDependency) (children : List (String × NpmNode)) : NpmNode

/-- The error produced for a node whose decoded version is empty without a
missing flag or problems marker (the Go message also echoes the raw node
text, which is not modelled). -/
def parseFailMsg : String := "failed to parse npm ls output"

/-- Function parseDependencies: recursively walk the tree entries in order,
merging each valid node into the map and recursing into its children with
the node id prepended to the path. -/
def parseDependencies : List (String × NpmNode) → List String → DepMap → Except String DepMap
  | [], _, dependencies => Except.ok dependencies
  | (_, NpmNode.emptyObj) :: rest, pathToRoot, dependencies =>
      parseDependencies rest pathToRoot dependencies
  | (_, NpmNode.badNode msg) :: _, _, _ => Except.error msg
  | (_, NpmNode.node dep children) :: rest, pathToRoot, dependencies =>
      if dep.Version = "" then
        if dep.Missing || dep.Problems.isSome then
          parseDependencies rest pathToRoot dependencies
        else
          Except.error parseFailMsg
      else
        match parseDependencies children (dep.id :: pathToRoot) (appendDependency dependencies dep pathToRoot) with
        | Except.error e => Except.error e
        | Except.ok m => parseDependencies rest pathToRoot m

/-- One merge step of the tree walk, as a fold step over (record, path)
occurrences. -/
def depStep (m : DepMap) (o : npmLsDependency × List String) : DepMap :=
  appendDependency m o.1 o.2

/-- The flattened sequence of (record, path) occurrences the walk merges, in
traversal order, with the same skip and error behavior as the walk. -/
def collectOccs : List (String × NpmNode) → List String → Except String (List (npmLsDependency × List String))
  | [], _ => Except.ok []
  | (_, NpmNode.emptyObj) :: rest, pathToRoot => collectOccs rest pathToRoot
  | (_, NpmNode.badNode msg) :: _, _ => Except.error msg
  | (_, NpmNode.node dep children) :: rest, pathToRoot =>
      if dep.Version = "" then
        if dep.Missing || dep.Problems.isSome then collectOccs rest pathToRoot
        else Except.error parseFailMsg
      else
        match collectOccs children (dep.id :: pathToRoot) with
        | Except.error e => Except.error e
        | Except.ok l1 =>
            match collectOccs rest pathToRoot with
            | Except.error e => Except.error e
            | Except.ok l2 => Except.ok ((dep, pathToRoot) :: (l1 ++ l2))

/-- The occurrences among l whose record id is key. -/
def occsFor (key : String) (l : List (npmLsDependency × List String)) : List (npmLsDependency × List String) :=
  l.filter (fun o => o.1.id = key)

/-- Per-key model of folding depStep: what the slot for one key goes through
as its occurrences are merged in order. -/
def mergeMany (o : Option dependencyInfo) (l : List (npmLsDependency × List String)) : Option dependencyInfo :=
  l.foldl (fun acc occ => some (mergeInto (acc.getD (freshEntry occ.1)) occ.1 occ.2)) o

/-- The integrity value after a sequence of backfill steps starting from i. -/
def integFold (i : String) (l : List String) : String :=
  l.foldl (fun cur x => if cur = "" then x else cur) i

/-- First non-empty string of a list, or the empty string. -/
def firstNonempty (l : List String) : String :=
  (l.find? (fun s => s != "")).getD ""

/-- Modelled from the spec: the package-cache lookup collaborator of
section 6. GetInfo resolves a name@version key to its integrity digest
(the Integrity field of the Go cacacheInfo result), GetTarball resolves an
integrity digest to a tarball path; both fail when not found. -/
structure cacache where
  GetInfo : String → Except String String
  GetTarball : String → Except String String

/-- Function calculateChecksum: resolve a missing integrity through the cache
index, then resolve the digest to a tarball path and hash that file.
hashFile is the external checksum collaborator (utils.GetFileChecksums),
returning (md5, sha1, sha256). -/
def calculateChecksum (c : cacache) (hashFile : String → Except String (String × String × String))
    (name ver integrity : String) : Except String (String × String × String) :=
  match (if integrity = "" then c.GetInfo (name ++ "@" ++ ver) else Except.ok integrity) with
  | Except.error e => Except.error e
  | Except.ok integ =>
      match c.GetTarball integ with
      | Except.error e => Except.error e
      | Except.ok path => hashFile path

/-- The assembler state of CalculateNpmDependenciesList: the final list plus
the four diagnostic buckets. -/
structure NpmDepsResult where
  dependenciesList : List Dependency
  missingPeerDeps : List String
  missingBundledDeps : List String
  missingOptionalDeps : List String
  otherMissingDeps : List String
  deriving DecidableEq

def emptyNpmDepsResult : NpmDepsResult :=
  { dependenciesList := [], missingPeerDeps := [], missingBundledDeps := []
    missingOptionalDeps := [], otherMissingDeps := [] }

/-- The loop body of CalculateNpmDependenciesList for one canonical map
entry: the skip-classification cascade, first matching rule wins. -/
def npmDepStep (calculateChecksums : Bool) (c : cacache)
    (hashFile : String → Except String (String × String × String))
    (acc : NpmDepsResult) (dep : dependencyInfo) : NpmDepsResult :=
  if dep.npmLsDependency.Integrity = "" ∧ dep.npmLsDependency.InBundle = true then
    { acc with missingBundledDeps := acc.missingBundledDeps ++ [dep.Dependency.Id] }
  else if dep.npmLsDependency.Integrity = "" ∧ dep.npmLsDependency.PeerMissing.isSome then
    { acc with missingPeerDeps := acc.missingPeerDeps ++ [dep.Dependency.Id] }
  else if calculateChecksums then
    match calculateChecksum c hashFile dep.npmLsDependency.Name dep.npmLsDependency.Version dep.npmLsDependency.Integrity with
    | Except.error _ =>
        if dep.npmLsDependency.Optional then
          { acc with missingOptionalDeps := acc.missingOptionalDeps ++ [dep.Dependency.Id] }
        else
          { acc with otherMissingDeps := acc.otherMissingDeps ++ [dep.Dependency.Id] }
    | Except.ok cs =>
        { acc with dependenciesList := acc.dependenciesList ++
            [{ dep.Dependency with Md5 := cs.1, Sha1 := cs.2.1, Sha256 := cs.2.2 }] }
  else
    { acc with dependenciesList := acc.dependenciesList ++ [dep.Dependency] }

/-- Function CalculateNpmDependenciesList, restricted to its classification
loop over the canonical map entries (the tree listing that produces the
entries and the cache-location discovery are subprocess collaborators,
externalized; the map's iteration order is taken as the order of the given
list). -/
def CalculateNpmDependenciesList (calculateChecksums : Bool) (c : cacache)
    (hashFile : String → Except String (String × String × String))
    (deps : List dependencyInfo) : NpmDepsResult :=
  deps.foldl (npmDepStep calculateChecksums c hashFile) emptyNpmDepsResult

/-- Modelled from the spec: the parsed semantic version of the manager
returned by the version query collaborator (gofrog version package,
external); only the threshold at major version 7 matters to npm.go. -/
structure SemVer where
  major : Nat
  minor : Nat
  patch : Nat
  deriving DecidableEq

/-- The comparison npmVersion.Compare of gofrog, specialized as npm.go uses
it: Compare returns a positive value exactly when the argument is larger,
so the test against 7.0.0 holds exactly for major versions below 7. -/
def SemVer.below7 (v : SemVer) : Bool := v.major < 7

/-- Struct PackageInfo of the package identity helper. -/
structure PackageInfo where
  Name : String
  Version : String
  Scope : String
  deriving DecidableEq

/-- Function removeVersionPrefixes: a leading v, then a leading equals sign,
each stripped at most once, in that order. -/
def removeVersionPrefixes (packageInfo : PackageInfo) : PackageInfo :=
  let packageInfo := { packageInfo with Version := goTrimPfx packageInfo.Version "v" }
  { packageInfo with Version := goTrimPfx packageInfo.Version "=" }

/-- Function splitScopeFromName: split a leading scope segment out of a
scoped package name. -/
def splitScopeFromName (packageInfo : PackageInfo) : PackageInfo :=
  if goHasPfx packageInfo.Name "@" ∧ goContainsChar packageInfo.Name '/' then
    let splitValues := goSplit packageInfo.Name '/'
    { packageInfo with Scope := splitValues.headD "", Name := splitValues.getD 1 "" }
  else packageInfo

/-- Function ReadPackageInfo, with JSON unmarshalling externalized: the
parsed manifest arrives as a PackageInfo with empty Scope, the manager
version as an optional SemVer (nil pointer is none). -/
def ReadPackageInfo (parsedResult : PackageInfo) (npmVersion : Option SemVer) : PackageInfo :=
  let parsedResult :=
    match npmVersion with
    | some v => if v.below7 then removeVersionPrefixes parsedResult else parsedResult
    | none => parsedResult
  splitScopeFromName parsedResult

/-- Function CalculateDependenciesMap, with the subprocess and filesystem
collaborators externalized: lsData is the decoded entries of the top-level
dependencies object of the captured stdout, lsErr the error of the listing
subprocess, nodeModulesExists the result of the IsDirExists check on the
node_modules directory under srcPath, npmVersionResult the version query
result. On a subprocess error the walk proceeds only when node_modules
exists; otherwise extraction fails naming the missing directory. -/
def CalculateDependenciesMap (lsData : List (String × NpmNode)) (lsErr : Option String)
    (nodeModulesExists : Except String Bool) (npmVersionResult : Except String SemVer)
    (srcPath moduleId : String) : Except String DepMap :=
  let proceed : Except String DepMap :=
    match npmVersionResult with
    | Except.error e => Except.error e
    | Except.ok _ => parseDependencies lsData [moduleId] []
  match lsErr with
  | some _ =>
      match nodeModulesExists with
      | Except.error e => Except.error e
      | Except.ok found =>
          if found then proceed
          else Except.error ("node_modules is not found in " ++ srcPath ++ ". Hint: Restore node_modules folder by running npm install or npm ci.")
  | none => proceed

/-! ### Scope union lemmas -/

theorem mem_scopeStep {x s : String} {acc : List String} :
    x ∈ scopeStep acc s ↔ x ∈ acc ∨ (x = s ∧ ¬ s = "") := by
  by_cases h1 : s = ""
  · simp [scopeStep, h1]
  · by_cases h2 : s ∈ acc
    · simp only [scopeStep, if_neg h1, if_pos h2]
      constructor
      · exact Or.inl
      · rintro (hx | ⟨rfl, -⟩)
        · exact hx
        · exact h2
    · simp only [scopeStep, if_neg h1, if_neg h2, List.mem_append, List.mem_singleton]
      constructor
      · rintro (hx | rfl)
        · exact Or.inl hx
        · exact Or.inr ⟨rfl, h1⟩
      · rintro (hx | ⟨rfl, -⟩)
        · exact Or.inl hx
        · exact Or.inr rfl

theorem mem_foldl_scopeStep {x : String} {l acc : List String} :
    x ∈ l.foldl scopeStep acc ↔ x ∈ acc ∨ (x ∈ l ∧ ¬ x = "") := by
  induction l generalizing acc with
  | nil => simp
  | cons s t ih =>
      simp only [List.foldl_cons, ih, mem_scopeStep, List.mem_cons]
      constructor
      · rintro ((hx | ⟨rfl, hs⟩) | ⟨hx, hne⟩)
        · exact Or.inl hx
        · exact Or.inr ⟨Or.inl rfl, hs⟩
        · exact Or.inr ⟨Or.inr hx, hne⟩
      · rintro (hx | ⟨(rfl | hx), hne⟩)
        · exact Or.inl (Or.inl hx)
        · exact Or.inl (Or.inr ⟨rfl, hne⟩)
        · exact Or.inr ⟨hx, hne⟩

theorem nodup_scopeStep {s : String} {acc : List String} (h : acc.Nodup) :
    (scopeStep acc s).Nodup := by
  unfold scopeStep
  split
  · exact h
  · split
    · exact h
    · next h2 => simpa using List.Nodup.append h (List.nodup_singleton s) (by simpa using h2)

theorem nodup_foldl_scopeStep {l acc : List String} (h : acc.Nodup) :
    (l.foldl scopeStep acc).Nodup := by
  induction l generalizing acc with
  | nil => exact h
  | cons s t ih => exact ih (nodup_scopeStep h)

theorem not_empty_mem_foldl_scopeStep {l acc : List String} (h : "" ∉ acc) :
    "" ∉ l.foldl scopeStep acc := by
  rw [mem_foldl_scopeStep]
  rintro (hx | ⟨-, hne⟩)
  · exact h hx
  · exact hne rfl

theorem foldl_scopeStep_of_subset {l acc : List String} (h : ∀ x ∈ l, ¬ x = "" → x ∈ acc) :
    l.foldl scopeStep acc = acc := by
  induction l with
  | nil => rfl
  | cons s t ih =>
      have hstep : scopeStep acc s = acc := by
        unfold scopeStep
        split
        · rfl
        · next h1 => rw [if_pos (h s (List.mem_cons_self s t) h1)]
      rw [List.foldl_cons, hstep]
      exact ih (fun x hx hne => h x (List.mem_cons_of_mem s hx) hne)

theorem foldl_scopeStep_extend {l acc : List String} (hnd : l.Nodup) (hne : "" ∉ l)
    (hdisj : ∀ x ∈ l, x ∉ acc) : l.foldl scopeStep acc = acc ++ l := by
  induction l generalizing acc with
  | nil => simp
  | cons s t ih =>
      have hs1 : ¬ s = "" := fun h => hne (h ▸ List.mem_cons_self s t)
      have hs2 : s ∉ acc := hdisj s (List.mem_cons_self s t)
      have hstep : scopeStep acc s = acc ++ [s] := by
        unfold scopeStep
        rw [if_neg hs1, if_neg hs2]
      rw [List.foldl_cons, hstep,
        ih (List.Nodup.of_cons hnd) (fun h => hne (List.mem_cons_of_mem s h))
          (fun x hx => by
            simp only [List.mem_append, List.mem_singleton]
            rintro (hxa | rfl)
            · exact hdisj x (List.mem_cons_of_mem s hx) hxa
            · exact (List.nodup_cons.mp hnd).1 hx),
        List.append_assoc]
      rfl

/-- A normal scope list: what appendScopes always produces. -/
def NormalScopes (l : List String) : Prop := l.Nodup ∧ "" ∉ l

theorem normalScopes_appendScopes (a b : List String) : NormalScopes (appendScopes a b) :=
  ⟨nodup_foldl_scopeStep List.nodup_nil, not_empty_mem_foldl_scopeStep (by simp)⟩

theorem mem_appendScopes {x : String} {a b : List String} :
    x ∈ appendScopes a b ↔ (x ∈ a ∨ x ∈ b) ∧ ¬ x = "" := by
  unfold appendScopes
  rw [mem_foldl_scopeStep]
  simp [List.mem_append]

theorem appendScopes_eq_foldl {a b : List String} (h : NormalScopes a) :
    appendScopes a b = b.foldl scopeStep a := by
  unfold appendScopes
  rw [List.foldl_append, foldl_scopeStep_extend h.1 h.2 (by simp), List.nil_append]

theorem appendScopes_absorb {a b : List String} (hn : NormalScopes a)
    (h : ∀ x ∈ b, ¬ x = "" → x ∈ a) : appendScopes a b = a := by
  rw [appendScopes_eq_foldl hn]
  exact foldl_scopeStep_of_subset h

/-! ### Map lookup and update lemmas -/

theorem mapLookup_append (m1 m2 : DepMap) (key : String) :
    mapLookup (m1 ++ m2) key = (mapLookup m1 key).orElse (fun _ => mapLookup m2 key) := by
  induction m1 with
  | nil => simp [mapLookup]
  | cons e rest ih =>
      obtain ⟨k, v⟩ := e
      by_cases h : k = key
      · simp [mapLookup, h]
      · simp [mapLookup, h, ih]

theorem mapUpdate_cons (e : String × dependencyInfo) (rest : DepMap) (k : String)
    (f : dependencyInfo → dependencyInfo) :
    mapUpdate (e :: rest) k f = (if e.1 = k then (e.1, f e.2) else e) :: mapUpdate rest k f := rfl

theorem mapLookup_cons (k' : String) (v : dependencyInfo) (rest : DepMap) (key : String) :
    mapLookup ((k', v) :: rest) key = if k' = key then some v else mapLookup rest key := rfl

theorem mapLookup_mapUpdate (m : DepMap) (k key : String) (f : dependencyInfo → dependencyInfo) :
    mapLookup (mapUpdate m k f) key =
      if key = k then (mapLookup m key).map f else mapLookup m key := by
  induction m with
  | nil => simp [mapLookup, mapUpdate]
  | cons e rest ih =>
      obtain ⟨k', v⟩ := e
      rw [mapUpdate_cons]
      dsimp only
      by_cases h1 : k' = k
      · subst h1
        by_cases h2 : k' = key
        · subst h2
          simp [mapLookup_cons]
        · have h2' : ¬ key = k' := fun h => h2 h.symm
          simp [mapLookup_cons, h2, h2', ih]
      · by_cases h2 : k' = key
        · subst h2
          simp [mapLookup_cons, h1]
        · have h2' : ¬ key = k' := fun h => h2 h.symm
          simp [mapLookup_cons, h1, h2, h2', ih]

def keys (m : DepMap) : List String := m.map Prod.fst

theorem keys_mapUpdate (m : DepMap) (k : String) (f : dependencyInfo → dependencyInfo) :
    keys (mapUpdate m k f) = keys m := by
  induction m with
  | nil => rfl
  | cons e rest ih =>
      rw [mapUpdate_cons]
      show (if e.1 = k then (e.1, f e.2) else e).1 :: keys (mapUpdate rest k f) = e.1 :: keys rest
      rw [ih]
      congr 1
      split <;> rfl

theorem mapLookup_isSome_iff (m : DepMap) (key : String) :
    (mapLookup m key).isSome ↔ key ∈ keys m := by
  induction m with
  | nil => simp [mapLookup, keys]
  | cons e rest ih =>
      obtain ⟨k', v⟩ := e
      rw [mapLookup_cons]
      by_cases h : k' = key
      · subst h
        simp [keys]
      · have h' : ¬ key = k' := fun hh => h hh.symm
        rw [if_neg h, ih]
        simp [keys, h']

/-- Lookup in the map after the create-if-absent step of appendDependency:
at the dependency id itself. -/
theorem mapLookup_insertFresh_self (m : DepMap) (dep : npmLsDependency) :
    mapLookup (if (mapLookup m dep.id).isNone then m ++ [(dep.id, freshEntry dep)] else m) dep.id
      = some ((mapLookup m dep.id).getD (freshEntry dep)) := by
  cases h : mapLookup m dep.id with
  | none =>
      show mapLookup (m ++ [(dep.id, freshEntry dep)]) dep.id = some ((none : Option dependencyInfo).getD (freshEntry dep))
      rw [mapLookup_append, h]
      simp [mapLookup]
  | some di => simp [h]

/-- Lookup after the create-if-absent step of appendDependency: at any other
key. -/
theorem mapLookup_insertFresh_other (m : DepMap) (dep : npmLsDependency) (key : String)
    (hk : ¬ key = dep.id) :
    mapLookup (if (mapLookup m dep.id).isNone then m ++ [(dep.id, freshEntry dep)] else m) key
      = mapLookup m key := by
  cases h : mapLookup m dep.id with
  | none =>
      have h' : ¬ dep.id = key := fun hh => hk hh.symm
      show mapLookup (m ++ [(dep.id, freshEntry dep)]) key = mapLookup m key
      rw [mapLookup_append]
      have h2 : mapLookup [(dep.id, freshEntry dep)] key = none := by
        simp [mapLookup, h']
      rw [h2]
      cases mapLookup m key <;> rfl
  | some di => simp [h]

/-- The central per-call characterization of appendDependency in terms of
lookups: the slot for dep.id is created if needed then merged into; every
other slot is untouched. -/
theorem mapLookup_appendDependency (m : DepMap) (dep : npmLsDependency) (p : List String)
    (key : String) :
    mapLookup (appendDependency m dep p) key =
      if key = dep.id then some (mergeInto ((mapLookup m dep.id).getD (freshEntry dep)) dep p)
      else mapLookup m key := by
  unfold appendDependency
  rw [mapLookup_mapUpdate]
  by_cases hk : key = dep.id
  · subst hk
    rw [if_pos rfl, if_pos rfl, mapLookup_insertFresh_self]
    rfl
  · rw [if_neg hk, if_neg hk, mapLookup_insertFresh_other m dep key hk]

theorem keys_appendDependency (m : DepMap) (dep : npmLsDependency) (p : List String) :
    keys (appendDependency m dep p) =
      if (mapLookup m dep.id).isNone then keys m ++ [dep.id] else keys m := by
  unfold appendDependency
  rw [keys_mapUpdate]
  split
  · simp [keys]
  · rfl

/-! ### Field lemmas for the merge step -/

theorem mergeInto_Id (di : dependencyInfo) (dep : npmLsDependency) (p : List String) :
    (mergeInto di dep p).Dependency.Id = di.Dependency.Id := by
  unfold mergeInto; split <;> rfl

theorem mergeInto_Md5 (di : dependencyInfo) (dep : npmLsDependency) (p : List String) :
    (mergeInto di dep p).Dependency.Md5 = di.Dependency.Md5 := by
  unfold mergeInto; split <;> rfl

theorem mergeInto_Sha1 (di : dependencyInfo) (dep : npmLsDependency) (p : List String) :
    (mergeInto di dep p).Dependency.Sha1 = di.Dependency.Sha1 := by
  unfold mergeInto; split <;> rfl

theorem mergeInto_Sha256 (di : dependencyInfo) (dep : npmLsDependency) (p : List String) :
    (mergeInto di dep p).Dependency.Sha256 = di.Dependency.Sha256 := by
  unfold mergeInto; split <;> rfl

theorem mergeInto_Scopes (di : dependencyInfo) (dep : npmLsDependency) (p : List String) :
    (mergeInto di dep p).Dependency.Scopes = appendScopes di.Dependency.Scopes dep.getScopes := by
  unfold mergeInto; split <;> rfl

theorem mergeInto_RequestedBy (di : dependencyInfo) (dep : npmLsDependency) (p : List String) :
    (mergeInto di dep p).Dependency.RequestedBy = di.Dependency.RequestedBy ++ [p] := by
  unfold mergeInto; split <;> rfl

theorem mergeInto_npmLs (di : dependencyInfo) (dep : npmLsDependency) (p : List String) :
    (mergeInto di dep p).npmLsDependency =
      { di.npmLsDependency with
          Integrity :=
            if di.npmLsDependency.Integrity = "" then dep.Integrity
            else di.npmLsDependency.Integrity } := by
  unfold mergeInto
  split <;> rfl

theorem mergeInto_freshEntry_npmLs (dep : npmLsDependency) (p : List String) :
    (mergeInto (freshEntry dep) dep p).npmLsDependency = dep := by
  rw [mergeInto_npmLs]
  split <;> rfl

/-! ### Per-key model of the fold of merge steps -/

theorem occsFor_cons_eq {key : String} {o : npmLsDependency × List String}
    {t : List (npmLsDependency × List String)} (h : o.1.id = key) :
    occsFor key (o :: t) = o :: occsFor key t := by
  simp [occsFor, h]

theorem occsFor_cons_ne {key : String} {o : npmLsDependency × List String}
    {t : List (npmLsDependency × List String)} (h : ¬ o.1.id = key) :
    occsFor key (o :: t) = occsFor key t := by
  simp [occsFor, h]

/-- Folding merge steps over occurrences, viewed one key at a time. -/
theorem mapLookup_foldl_depStep (l : List (npmLsDependency × List String)) (m : DepMap)
    (key : String) :
    mapLookup (l.foldl depStep m) key = mergeMany (mapLookup m key) (occsFor key l) := by
  induction l generalizing m with
  | nil => rfl
  | cons o t ih =>
      rw [List.foldl_cons, ih]
      by_cases ho : o.1.id = key
      · rw [occsFor_cons_eq ho,
          show mergeMany (mapLookup m key) (o :: occsFor key t) =
            mergeMany (some (mergeInto ((mapLookup m key).getD (freshEntry o.1)) o.1 o.2))
              (occsFor key t) from rfl,
          show depStep m o = appendDependency m o.1 o.2 from rfl,
          mapLookup_appendDependency, if_pos ho.symm, ho]
      · rw [occsFor_cons_ne ho,
          show depStep m o = appendDependency m o.1 o.2 from rfl,
          mapLookup_appendDependency, if_neg (fun h => ho h.symm)]

theorem mergeMany_nil (o : Option dependencyInfo) : mergeMany o [] = o := rfl

theorem mergeMany_cons (o : Option dependencyInfo) (x : npmLsDependency × List String)
    (t : List (npmLsDependency × List String)) :
    mergeMany o (x :: t) = mergeMany (some (mergeInto (o.getD (freshEntry x.1)) x.1 x.2)) t := rfl

theorem integFold_nil (i : String) : integFold i [] = i := rfl

theorem integFold_cons (i a : String) (t : List String) :
    integFold i (a :: t) = integFold (if i = "" then a else i) t := rfl

theorem integFold_of_ne (i : String) (l : List String) (h : ¬ i = "") : integFold i l = i := by
  induction l with
  | nil => rfl
  | cons a t ih => rw [integFold_cons, if_neg h]; exact ih

theorem firstNonempty_cons_empty (l : List String) :
    firstNonempty ("" :: l) = firstNonempty l := by
  unfold firstNonempty
  rw [List.find?_cons_of_neg _ (by simp)]

theorem firstNonempty_cons_of_ne (i : String) (l : List String) (h : ¬ i = "") :
    firstNonempty (i :: l) = i := by
  unfold firstNonempty
  rw [List.find?_cons_of_pos _ (by simpa using h)]
  rfl

theorem integFold_eq_firstNonempty (i : String) (l : List String) :
    integFold i l = firstNonempty (i :: l) := by
  induction l generalizing i with
  | nil =>
      by_cases h : i = ""
      · subst h; rfl
      · rw [integFold_nil, firstNonempty_cons_of_ne _ _ h]
  | cons a t ih =>
      rw [integFold_cons]
      by_cases h : i = ""
      · subst h
        rw [if_pos rfl, ih, firstNonempty_cons_empty]
      · rw [if_neg h, integFold_of_ne _ _ h, firstNonempty_cons_of_ne _ _ h]

/-- Full characterization of what a sequence of merges does to an existing
slot: id and checksums unchanged, one path appended per occurrence, scopes
folded through the union, and the retained raw record changed only in its
integrity. -/
theorem mergeMany_some_spec (l : List (npmLsDependency × List String)) (di : dependencyInfo) :
    ∃ di2, mergeMany (some di) l = some di2 ∧
      di2.Dependency.Id = di.Dependency.Id ∧
      di2.Dependency.Md5 = di.Dependency.Md5 ∧
      di2.Dependency.Sha1 = di.Dependency.Sha1 ∧
      di2.Dependency.Sha256 = di.Dependency.Sha256 ∧
      di2.Dependency.RequestedBy = di.Dependency.RequestedBy ++ l.map (fun o => o.2) ∧
      di2.Dependency.Scopes =
        (l.map (fun o => o.1.getScopes)).foldl appendScopes di.Dependency.Scopes ∧
      di2.npmLsDependency =
        { di.npmLsDependency with
            Integrity :=
              integFold di.npmLsDependency.Integrity (l.map (fun o => o.1.Integrity)) } := by
  induction l generalizing di with
  | nil =>
      exact ⟨di, rfl, rfl, rfl, rfl, rfl, by simp, rfl, rfl⟩
  | cons x t ih =>
      obtain ⟨di2, hm, hid, hmd5, hsh1, hsh256, hrb, hsc, hnpm⟩ := ih (mergeInto di x.1 x.2)
      refine ⟨di2, ?_, ?_, ?_, ?_, ?_, ?_, ?_, ?_⟩
      · rw [mergeMany_cons]; exact hm
      · rw [hid, mergeInto_Id]
      · rw [hmd5, mergeInto_Md5]
      · rw [hsh1, mergeInto_Sha1]
      · rw [hsh256, mergeInto_Sha256]
      · rw [hrb, mergeInto_RequestedBy]; simp
      · rw [hsc, mergeInto_Scopes]; rfl
      · rw [hnpm, mergeInto_npmLs]; rfl

/-! ### Equations of the walk and of the occurrence collection -/

theorem parseDependencies_nil (path : List String) (m : DepMap) :
    parseDependencies [] path m = Except.ok m := by
  simp [parseDependencies]

theorem parseDependencies_emptyObj (key : String) (rest : List (String × NpmNode))
    (path : List String) (m : DepMap) :
    parseDependencies ((key, NpmNode.emptyObj) :: rest) path m =
      parseDependencies rest path m := by
  simp [parseDependencies]

theorem parseDependencies_badNode (key msg : String) (rest : List (String × NpmNode))
    (path : List String) (m : DepMap) :
    parseDependencies ((key, NpmNode.badNode msg) :: rest) path m = Except.error msg := by
  simp [parseDependencies]

theorem parseDependencies_node_skip {dep : npmLsDependency} (key : String)
    (children rest : List (String × NpmNode)) (path : List String) (m : DepMap)
    (h1 : dep.Version = "") (h2 : (dep.Missing || dep.Problems.isSome) = true) :
    parseDependencies ((key, NpmNode.node dep children) :: rest) path m =
      parseDependencies rest path m := by
  simp [parseDependencies, h1, h2]

theorem parseDependencies_node_fail {dep : npmLsDependency} (key : String)
    (children rest : List (String × NpmNode)) (path : List String) (m : DepMap)
    (h1 : dep.Version = "") (h2 : (dep.Missing || dep.Problems.isSome) = false) :
    parseDependencies ((key, NpmNode.node dep children) :: rest) path m =
      Except.error parseFailMsg := by
  simp [parseDependencies, h1, h2]

theorem parseDependencies_node_go {dep : npmLsDependency} (key : String)
    (children rest : List (String × NpmNode)) (path : List String) (m : DepMap)
    (h1 : ¬ dep.Version = "") :
    parseDependencies ((key, NpmNode.node dep children) :: rest) path m =
      match parseDependencies children (dep.id :: path) (appendDependency m dep path) with
      | Except.error e => Except.error e
      | Except.ok m2 => parseDependencies rest path m2 := by
  simp [parseDependencies, h1]

theorem parseDependencies_node_ok {dep : npmLsDependency} (key : String)
    (children rest : List (String × NpmNode)) (path : List String) (m m2 : DepMap)
    (h1 : ¬ dep.Version = "")
    (hch : parseDependencies children (dep.id :: path) (appendDependency m dep path) =
      Except.ok m2) :
    parseDependencies ((key, NpmNode.node dep children) :: rest) path m =
      parseDependencies rest path m2 := by
  rw [parseDependencies_node_go key children rest path m h1, hch]

theorem collectOccs_nil (path : List String) : collectOccs [] path = Except.ok [] := by
  simp [collectOccs]

theorem collectOccs_emptyObj (key : String) (rest : List (String × NpmNode))
    (path : List String) :
    collectOccs ((key, NpmNode.emptyObj) :: rest) path = collectOccs rest path := by
  simp [collectOccs]

theorem collectOccs_badNode (key msg : String) (rest : List (String × NpmNode))
    (path : List String) :
    collectOccs ((key, NpmNode.badNode msg) :: rest) path = Except.error msg := by
  simp [collectOccs]

theorem collectOccs_node_skip {dep : npmLsDependency} (key : String)
    (children rest : List (String × NpmNode)) (path : List String)
    (h1 : dep.Version = "") (h2 : (dep.Missing || dep.Problems.isSome) = true) :
    collectOccs ((key, NpmNode.node dep children) :: rest) path = collectOccs rest path := by
  simp [collectOccs, h1, h2]

theorem collectOccs_node_fail {dep : npmLsDependency} (key : String)
    (children rest : List (String × NpmNode)) (path : List String)
    (h1 : dep.Version = "") (h2 : (dep.Missing || dep.Problems.isSome) = false) :
    collectOccs ((key, NpmNode.node dep children) :: rest) path = Except.error parseFailMsg := by
  simp [collectOccs, h1, h2]

theorem collectOccs_node_go {dep : npmLsDependency} (key : String)
    (children rest : List (String × NpmNode)) (path : List String)
    (h1 : ¬ dep.Version = "") :
    collectOccs ((key, NpmNode.node dep children) :: rest) path =
      match collectOccs children (dep.id :: path) with
      | Except.error e => Except.error e
      | Except.ok l1 =>
          match collectOccs rest path with
          | Except.error e => Except.error e
          | Except.ok l2 => Except.ok ((dep, path) :: (l1 ++ l2)) := by
  simp [collectOccs, h1]

/-! ### The walk as a fold over the occurrence sequence -/

/-- The tree walk is the fold of the merge step over the flattened
occurrence sequence; in particular success and failure do not depend on
the accumulated map. -/
theorem parseDependencies_eq_fold (entries : List (String × NpmNode)) (pathToRoot : List String) :
    ∀ m, parseDependencies entries pathToRoot m =
      (collectOccs entries pathToRoot).map (fun l => l.foldl depStep m) := by
  induction entries, pathToRoot using collectOccs.induct with
  | case1 path =>
      intro m
      rw [parseDependencies_nil, collectOccs_nil]
      rfl
  | case2 key rest path ih =>
      intro m
      rw [parseDependencies_emptyObj, collectOccs_emptyObj]
      exact ih m
  | case3 key msg rest path =>
      intro m
      rw [parseDependencies_badNode, collectOccs_badNode]
      rfl
  | case4 key dep children rest path h1 h2 ih =>
      intro m
      rw [parseDependencies_node_skip key children rest path m h1 h2,
        collectOccs_node_skip key children rest path h1 h2]
      exact ih m
  | case5 key dep children rest path h1 h2 =>
      intro m
      rw [parseDependencies_node_fail key children rest path m h1 (by simpa using h2),
        collectOccs_node_fail key children rest path h1 (by simpa using h2)]
      rfl
  | case6 key dep children rest path h1 e he ihc =>
      intro m
      rw [parseDependencies_node_go key children rest path m h1,
        collectOccs_node_go key children rest path h1, he, ihc, he]
      rfl
  | case7 key dep children rest path h1 l1 hc e he ihc ihr =>
      intro m
      rw [parseDependencies_node_go key children rest path m h1,
        collectOccs_node_go key children rest path h1, hc, he,
        ihc (appendDependency m dep path), hc]
      simp only [Except.map]
      rw [ihr]
      rw [he]
      rfl
  | case8 key dep children rest path h1 l1 hc l2 hr ihc ihr =>
      intro m
      rw [parseDependencies_node_go key children rest path m h1,
        collectOccs_node_go key children rest path h1, hc, hr,
        ihc (appendDependency m dep path), hc]
      simp only [Except.map]
      rw [ihr, hr]
      simp only [Except.map]
      rw [List.foldl_cons, List.foldl_append]
      rfl

/-! ### Accumulated scope folds, occurrence membership, fold key set -/

theorem scopesAccum_mem {x : String} {G : List (List String)} {s0 : List String}
    (hs0 : "" ∉ s0) :
    x ∈ G.foldl appendScopes s0 ↔ x ∈ s0 ∨ (¬ x = "" ∧ ∃ g ∈ G, x ∈ g) := by
  induction G generalizing s0 with
  | nil => simp
  | cons g G ih =>
      rw [List.foldl_cons, ih (normalScopes_appendScopes s0 g).2, mem_appendScopes]
      constructor
      · rintro (⟨(hx | hx), hne⟩ | ⟨hne, g', hg', hx⟩)
        · exact Or.inl hx
        · exact Or.inr ⟨hne, g, List.mem_cons_self g G, hx⟩
        · exact Or.inr ⟨hne, g', List.mem_cons_of_mem g hg', hx⟩
      · rintro (hx | ⟨hne, g', hg', hx⟩)
        · exact Or.inl ⟨Or.inl hx, fun he => hs0 (he ▸ hx)⟩
        · rcases List.mem_cons.mp hg' with rfl | hg'
          · exact Or.inl ⟨Or.inr hx, hne⟩
          · exact Or.inr ⟨hne, g', hg', hx⟩

theorem normalScopes_foldl (G : List (List String)) {s : List String} (hn : NormalScopes s) :
    NormalScopes (G.foldl appendScopes s) := by
  induction G generalizing s with
  | nil => exact hn
  | cons g G ih => exact ih (normalScopes_appendScopes s g)

theorem foldl_appendScopes_absorb {s : List String} {G : List (List String)}
    (hn : NormalScopes s) (h : ∀ g ∈ G, ∀ x ∈ g, ¬ x = "" → x ∈ s) :
    G.foldl appendScopes s = s := by
  induction G with
  | nil => rfl
  | cons g G ih =>
      rw [List.foldl_cons, appendScopes_absorb hn (h g (List.mem_cons_self g G))]
      exact ih (fun g' hg' => h g' (List.mem_cons_of_mem g hg'))

theorem mergeMany_none_cons (x : npmLsDependency × List String)
    (t : List (npmLsDependency × List String)) :
    mergeMany none (x :: t) = mergeMany (some (mergeInto (freshEntry x.1) x.1 x.2)) t := rfl

theorem mapLookup_foldl_depStep_nil (l : List (npmLsDependency × List String)) (key : String) :
    mapLookup (l.foldl depStep []) key = mergeMany none (occsFor key l) :=
  mapLookup_foldl_depStep l [] key

theorem mem_occsFor_self {o : npmLsDependency × List String}
    {l : List (npmLsDependency × List String)} (h : o ∈ l) : o ∈ occsFor o.1.id l :=
  List.mem_filter.mpr ⟨h, by simp⟩

theorem mem_of_mem_occsFor {key : String} {o : npmLsDependency × List String}
    {l : List (npmLsDependency × List String)} (h : o ∈ occsFor key l) :
    o ∈ l ∧ o.1.id = key := by
  refine ⟨(List.mem_filter.mp h).1, ?_⟩
  have := (List.mem_filter.mp h).2
  simpa using this

theorem keys_foldl_depStep {l : List (npmLsDependency × List String)} {m : DepMap}
    (h : ∀ o ∈ l, o.1.id ∈ keys m) : keys (l.foldl depStep m) = keys m := by
  induction l generalizing m with
  | nil => rfl
  | cons o t ih =>
      have hsome : (mapLookup m o.1.id).isSome :=
        (mapLookup_isSome_iff m o.1.id).mpr (h o (List.mem_cons_self o t))
      have hk : keys (depStep m o) = keys m := by
        show keys (appendDependency m o.1 o.2) = keys m
        rw [keys_appendDependency]
        cases hc : mapLookup m o.1.id with
        | none => rw [hc] at hsome; simp at hsome
        | some di => rfl
      rw [List.foldl_cons, ih (fun o' ho' => hk ▸ h o' (List.mem_cons_of_mem o ho')), hk]

theorem mergeInto_fresh_Id (dep : npmLsDependency) (p : List String) :
    (mergeInto (freshEntry dep) dep p).Dependency.Id = dep.id := by
  rw [mergeInto_Id]; rfl

/-- Every entry of the map built by folding merge steps from the empty map
is fully determined by the occurrences of its key: id from the first
occurrence, empty checksums, one requestedBy path per occurrence, scopes
the fold of the union over all occurrence scopes, and the retained raw
record equal to the first occurrence up to integrity backfill. -/
theorem foldl_depStep_entry_spec (l : List (npmLsDependency × List String)) (key : String)
    (di : dependencyInfo) (h : mapLookup (l.foldl depStep []) key = some di) :
    ∃ d0 p0 t, occsFor key l = (d0, p0) :: t ∧
      di.Dependency.Id = d0.id ∧
      di.Dependency.Md5 = "" ∧ di.Dependency.Sha1 = "" ∧ di.Dependency.Sha256 = "" ∧
      di.Dependency.RequestedBy = ((d0, p0) :: t).map (fun o => o.2) ∧
      di.Dependency.Scopes =
        (((d0, p0) :: t).map (fun o => o.1.getScopes)).foldl appendScopes [] ∧
      di.npmLsDependency =
        { d0 with Integrity := integFold d0.Integrity (t.map (fun o => o.1.Integrity)) } := by
  rw [mapLookup_foldl_depStep_nil] at h
  cases hocc : occsFor key l with
  | nil => rw [hocc] at h; exact absurd h (by simp [mergeMany_nil])
  | cons x t =>
      obtain ⟨d0, p0⟩ := x
      rw [hocc, mergeMany_none_cons] at h
      obtain ⟨di2, hm, hid, hmd5, hsh1, hsh256, hrb, hsc, hnpm⟩ :=
        mergeMany_some_spec t (mergeInto (freshEntry d0) d0 p0)
      rw [hm] at h
      obtain rfl : di2 = di := by injection h
      refine ⟨d0, p0, t, rfl, ?_, ?_, ?_, ?_, ?_, ?_, ?_⟩
      · rw [hid, mergeInto_fresh_Id]
      · rw [hmd5, mergeInto_Md5]; rfl
      · rw [hsh1, mergeInto_Sha1]; rfl
      · rw [hsh256, mergeInto_Sha256]; rfl
      · rw [hrb, mergeInto_RequestedBy]; rfl
      · rw [hsc, mergeInto_Scopes]; rfl
      · rw [hnpm, mergeInto_freshEntry_npmLs]

/-! ### Claim C9 -/

/-- C9: a node decoded with the legacy parser yields a canonical record
whose optional flag is the logical OR of the top-level Optional field and
the inner underscore optional field, with name, version, integrity,
bundled, dev, missing and peer-missing carried over unchanged (and no
problems list, since the legacy shape has none). -/
theorem toNpmLsDependency_optional_or (lnld : legacyNpmLsDependency) :
    lnld.toNpmLsDependency =
      { Name := lnld.Name, Version := lnld.Version, Integrity := lnld.Integrity,
        InBundle := lnld.InBundle, Dev := lnld.Dev,
        Optional := (lnld.Optional || lnld.InnerOptional), Missing := lnld.Missing,
        Problems := none, PeerMissing := lnld.PeerMissing } := by
  have h : lnld.optional = (lnld.Optional || lnld.InnerOptional) := by
    unfold legacyNpmLsDependency.optional
    cases hb : lnld.Optional <;> simp [hb]
  unfold legacyNpmLsDependency.toNpmLsDependency
  rw [h]

/-! ### Claim C8 -/

/-- C8: for a record whose name begins with an at sign, getScopes adds the
first segment of the slash split as a scope-group label exactly when the
split has more than two segments; with exactly two segments only the
dev or prod label is produced. -/
theorem getScopes_scope_group (nld : npmLsDependency) (h : goHasPfx nld.Name "@" = true) :
    (2 < (goSplit nld.Name '/').length →
      nld.getScopes = (if nld.Dev then ["dev"] else ["prod"]) ++ [(goSplit nld.Name '/').headD ""]) ∧
    ((goSplit nld.Name '/').length = 2 →
      nld.getScopes = (if nld.Dev then ["dev"] else ["prod"])) := by
  constructor
  · intro hlen
    simp only [npmLsDependency.getScopes, h, if_true]
    rw [if_pos hlen]
  · intro hlen
    simp only [npmLsDependency.getScopes, h, if_true]
    rw [if_neg (by rw [hlen]; exact fun hh => absurd hh (by decide))]

def cNld8 : npmLsDependency :=
  { Name := "@org/sub/pkg", Version := "1.0.0", Integrity := "", InBundle := false,
    Dev := false, Optional := false, Missing := false, Problems := none, PeerMissing := none }

theorem getScopes_scope_group_witness :
    goHasPfx cNld8.Name "@" = true ∧ 2 < (goSplit cNld8.Name '/').length ∧
    cNld8.getScopes = (if cNld8.Dev then ["dev"] else ["prod"]) ++ [(goSplit cNld8.Name '/').headD ""] :=
  ⟨by decide, by decide, (getScopes_scope_group cNld8 (by decide)).1 (by decide)⟩

/-! ### Claim C5 -/

def piC5 : PackageInfo := { Name := "pkg", Version := "=v1.2.3", Scope := "" }

/-- C5 counterexample: under a pre-7 manager the manifest version
=v1.2.3 yields v1.2.3, not 1.2.3 as the claim states, because the v strip
runs first and does not match, after which only the equals sign is
removed. -/
theorem ReadPackageInfo_eq_v_counterexample :
    (ReadPackageInfo piC5 (some { major := 6, minor := 14, patch := 0 })).Version = "v1.2.3" ∧
    ¬ (ReadPackageInfo piC5 (some { major := 6, minor := 14, patch := 0 })).Version = "1.2.3" := by
  decide

theorem splitScopeFromName_Version (p : PackageInfo) :
    (splitScopeFromName p).Version = p.Version := by
  unfold splitScopeFromName
  split <;> rfl

/-- C5 amended: under a manager of major version below 7 the identity
helper strips a single leading v and then, from the result, a single
leading equals sign (so both can be stripped in that order, and =v1.2.3
yields v1.2.3, while v=1.2.3 yields 1.2.3); at major version 7 or above
the version is left untouched. -/
theorem ReadPackageInfo_version_stripping (p : PackageInfo) (v : SemVer) :
    (v.below7 = true →
      (ReadPackageInfo p (some v)).Version = goTrimPfx (goTrimPfx p.Version "v") "=") ∧
    (v.below7 = false → (ReadPackageInfo p (some v)).Version = p.Version) ∧
    (v.below7 = true →
      (ReadPackageInfo { p with Version := "=v1.2.3" } (some v)).Version = "v1.2.3") ∧
    (v.below7 = true →
      (ReadPackageInfo { p with Version := "v=1.2.3" } (some v)).Version = "1.2.3") := by
  have hsplit : ∀ (q : PackageInfo), v.below7 = true →
      (ReadPackageInfo q (some v)).Version = goTrimPfx (goTrimPfx q.Version "v") "=" := by
    intro q h
    show (splitScopeFromName (if v.below7 then removeVersionPrefixes q else q)).Version = _
    rw [if_pos h, splitScopeFromName_Version]
    rfl
  have hmod : ∀ (q : PackageInfo), v.below7 = false →
      (ReadPackageInfo q (some v)).Version = q.Version := by
    intro q h
    show (splitScopeFromName (if v.below7 then removeVersionPrefixes q else q)).Version = _
    rw [if_neg (by simp [h]), splitScopeFromName_Version]
  refine ⟨hsplit p, hmod p, ?_, ?_⟩
  · intro h
    rw [hsplit _ h]
    show goTrimPfx (goTrimPfx "=v1.2.3" "v") "=" = "v1.2.3"
    decide
  · intro h
    rw [hsplit _ h]
    show goTrimPfx (goTrimPfx "v=1.2.3" "v") "=" = "1.2.3"
    decide

theorem ReadPackageInfo_version_stripping_witness :
    ({ major := 6, minor := 14, patch := 0 } : SemVer).below7 = true ∧
    (ReadPackageInfo piC5 (some { major := 6, minor := 14, patch := 0 })).Version =
      goTrimPfx (goTrimPfx piC5.Version "v") "=" :=
  ⟨by decide, (ReadPackageInfo_version_stripping piC5 _).1 (by decide)⟩

/-! ### Claim C6 -/

/-- C6: when the tree-listing subprocess reports an error, extraction fails
with an error naming the missing node_modules directory if that directory
does not exist, and otherwise only continues (the same as an error-free
run on the captured stdout). -/
theorem CalculateDependenciesMap_error_handling (lsData : List (String × NpmNode)) (e : String)
    (ver : Except String SemVer) (srcPath moduleId : String) :
    CalculateDependenciesMap lsData (some e) (Except.ok false) ver srcPath moduleId =
      Except.error ("node_modules is not found in " ++ srcPath ++ ". Hint: Restore node_modules folder by running npm install or npm ci.") ∧
    CalculateDependenciesMap lsData (some e) (Except.ok true) ver srcPath moduleId =
      CalculateDependenciesMap lsData none (Except.ok true) ver srcPath moduleId := by
  constructor <;> rfl

/-! ### Claim C4 -/

def cDep4 : npmLsDependency :=
  { Name := "a", Version := "", Integrity := "", InBundle := false, Dev := false,
    Optional := false, Missing := false, Problems := some [], PeerMissing := none }

/-- C4 counterexample: a node whose decoded record has empty version, an
unset missing flag, and a present but empty problems list is skipped with
the map unchanged, although the claim (problems list non-empty) requires
the walk to abort with an error on this node. -/
theorem parseDependencies_empty_problems_counterexample :
    cDep4.Version = "" ∧ cDep4.Missing = false ∧ cDep4.Problems = some [] ∧
    parseDependencies [("a", NpmNode.node cDep4 [])] ["mod"] [] = Except.ok [] := by
  refine ⟨rfl, rfl, rfl, ?_⟩
  rw [parseDependencies_node_skip "a" [] [] ["mod"] [] rfl (by decide), parseDependencies_nil]

/-- C4 amended: an exactly-empty node body is skipped with the map
unchanged; a record with empty version whose missing flag is set or whose
problems field is present (non-nil, even when the list is empty) is
skipped likewise; with empty version and neither condition the walk aborts
with an error; otherwise the node is merged and its children recursed
into. -/
theorem parseDependencies_node_handling :
    (∀ (key : String) (rest : List (String × NpmNode)) (path : List String) (m : DepMap),
      parseDependencies ((key, NpmNode.emptyObj) :: rest) path m =
        parseDependencies rest path m) ∧
    (∀ (key : String) (dep : npmLsDependency) (children rest : List (String × NpmNode))
      (path : List String) (m : DepMap),
      dep.Version = "" → (dep.Missing || dep.Problems.isSome) = true →
      parseDependencies ((key, NpmNode.node dep children) :: rest) path m =
        parseDependencies rest path m) ∧
    (∀ (key : String) (dep : npmLsDependency) (children rest : List (String × NpmNode))
      (path : List String) (m : DepMap),
      dep.Version = "" → (dep.Missing || dep.Problems.isSome) = false →
      parseDependencies ((key, NpmNode.node dep children) :: rest) path m =
        Except.error parseFailMsg) ∧
    (∀ (key : String) (dep : npmLsDependency) (children rest : List (String × NpmNode))
      (path : List String) (m : DepMap),
      ¬ dep.Version = "" →
      parseDependencies ((key, NpmNode.node dep children) :: rest) path m =
        match parseDependencies children (dep.id :: path) (appendDependency m dep path) with
        | Except.error e => Except.error e
        | Except.ok m2 => parseDependencies rest path m2) :=
  ⟨fun key rest path m => parseDependencies_emptyObj key rest path m,
   fun key _dep children rest path m h1 h2 =>
     parseDependencies_node_skip key children rest path m h1 h2,
   fun key _dep children rest path m h1 h2 =>
     parseDependencies_node_fail key children rest path m h1 h2,
   fun key _dep children rest path m h1 =>
     parseDependencies_node_go key children rest path m h1⟩

def cDep4b : npmLsDependency :=
  { Name := "b", Version := "", Integrity := "", InBundle := false, Dev := false,
    Optional := false, Missing := true, Problems := none, PeerMissing := none }

theorem parseDependencies_node_handling_witness :
    (cDep4b.Version = "" ∧ (cDep4b.Missing || cDep4b.Problems.isSome) = true) ∧
    parseDependencies [("p", NpmNode.node cDep4b []), ("q", NpmNode.emptyObj)] ["m"] [] =
      parseDependencies [("q", NpmNode.emptyObj)] ["m"] [] :=
  ⟨⟨rfl, by decide⟩,
    parseDependencies_node_handling.2.1 "p" cDep4b [] [("q", NpmNode.emptyObj)] ["m"] []
      rfl (by decide)⟩

/-! ### Claim C1 -/

/-- C1: integrity digests never regress: a later merge for a key whose
retained digest is already non-empty leaves it unchanged, and over any
occurrence sequence merged from the empty map the retained digest is the
first non-empty digest of the occurrences of that key in traversal
order. -/
theorem appendDependency_integrity_first_nonempty :
    (∀ (m : DepMap) (dep : npmLsDependency) (p : List String) (key : String)
      (di : dependencyInfo),
      mapLookup m key = some di → ¬ di.npmLsDependency.Integrity = "" →
      ∃ di2, mapLookup (appendDependency m dep p) key = some di2 ∧
        di2.npmLsDependency.Integrity = di.npmLsDependency.Integrity) ∧
    (∀ (l : List (npmLsDependency × List String)) (key : String) (di : dependencyInfo),
      mapLookup (l.foldl depStep []) key = some di →
      di.npmLsDependency.Integrity =
        firstNonempty ((occsFor key l).map (fun o => o.1.Integrity))) := by
  constructor
  · intro m dep p key di hl hne
    by_cases hk : key = dep.id
    · subst hk
      rw [mapLookup_appendDependency, if_pos rfl, hl]
      refine ⟨_, rfl, ?_⟩
      show (mergeInto di dep p).npmLsDependency.Integrity = _
      rw [mergeInto_npmLs]
      simp [hne]
    · rw [mapLookup_appendDependency, if_neg hk, hl]
      exact ⟨di, rfl, rfl⟩
  · intro l key di h
    obtain ⟨d0, p0, t, hocc, -, -, -, -, -, -, hnpm⟩ := foldl_depStep_entry_spec l key di h
    rw [hocc, hnpm]
    show integFold d0.Integrity (t.map (fun o => o.1.Integrity)) =
      firstNonempty (((d0, p0) :: t).map (fun o => o.1.Integrity))
    rw [List.map_cons, integFold_eq_firstNonempty]

def cDep1 : npmLsDependency :=
  { Name := "a", Version := "1", Integrity := "", InBundle := false, Dev := false,
    Optional := false, Missing := false, Problems := none, PeerMissing := none }

def cDi1 : dependencyInfo :=
  { Dependency :=
      { Id := "a:1", Scopes := ["prod"], RequestedBy := [["m"]],
        Md5 := "", Sha1 := "", Sha256 := "" },
    npmLsDependency := { cDep1 with Integrity := "sha-x" } }

theorem appendDependency_integrity_first_nonempty_witness :
    ∃ di2, mapLookup (appendDependency [("a:1", cDi1)] cDep1 ["m"]) "a:1" = some di2 ∧
      di2.npmLsDependency.Integrity = cDi1.npmLsDependency.Integrity :=
  appendDependency_integrity_first_nonempty.1 [("a:1", cDi1)] cDep1 ["m"] "a:1" cDi1
    (by decide) (by decide)

/-! ### Claim C10 -/

/-- C10: the retained raw record for an id is the one of its first
occurrence; a later merge for the same id changes only the integrity
backfill (only when the retained one is empty), the scope union and the
requestedBy list, never the classification flags; other keys are
untouched. -/
theorem appendDependency_frame :
    (∀ (m : DepMap) (dep : npmLsDependency) (p : List String),
      mapLookup m dep.id = none →
      mapLookup (appendDependency m dep p) dep.id =
        some { Dependency :=
                 { Id := dep.id, Scopes := appendScopes [] dep.getScopes,
                   RequestedBy := [p], Md5 := "", Sha1 := "", Sha256 := "" },
               npmLsDependency := dep }) ∧
    (∀ (m : DepMap) (dep : npmLsDependency) (p : List String) (di : dependencyInfo),
      mapLookup m dep.id = some di →
      mapLookup (appendDependency m dep p) dep.id =
        some { Dependency :=
                 { di.Dependency with
                   Scopes := appendScopes di.Dependency.Scopes dep.getScopes,
                   RequestedBy := di.Dependency.RequestedBy ++ [p] },
               npmLsDependency :=
                 { di.npmLsDependency with
                   Integrity := if di.npmLsDependency.Integrity = "" then dep.Integrity
                     else di.npmLsDependency.Integrity } }) ∧
    (∀ (m : DepMap) (dep : npmLsDependency) (p : List String) (key : String),
      ¬ key = dep.id → mapLookup (appendDependency m dep p) key = mapLookup m key) ∧
    (∀ (l : List (npmLsDependency × List String)) (key : String) (di : dependencyInfo),
      mapLookup (l.foldl depStep []) key = some di →
      ∃ d0 p0 t, occsFor key l = (d0, p0) :: t ∧
        di.npmLsDependency = { d0 with Integrity := di.npmLsDependency.Integrity }) := by
  refine ⟨?_, ?_, ?_, ?_⟩
  · intro m dep p h
    rw [mapLookup_appendDependency, if_pos rfl, h]
    refine congrArg some ?_
    show mergeInto (freshEntry dep) dep p = _
    unfold mergeInto freshEntry
    split <;> rfl
  · intro m dep p di h
    rw [mapLookup_appendDependency, if_pos rfl, h]
    refine congrArg some ?_
    show mergeInto di dep p = _
    by_cases hI : di.npmLsDependency.Integrity = ""
    · unfold mergeInto
      rw [if_pos hI, if_pos hI]
    · unfold mergeInto
      rw [if_neg hI, if_neg hI]
  · intro m dep p key hk
    rw [mapLookup_appendDependency, if_neg hk]
  · intro l key di h
    obtain ⟨d0, p0, t, hocc, -, -, -, -, -, -, hnpm⟩ := foldl_depStep_entry_spec l key di h
    exact ⟨d0, p0, t, hocc, by rw [hnpm]⟩

theorem appendDependency_frame_witness :
    mapLookup ([] : DepMap) cDep1.id = none ∧
    mapLookup (appendDependency [] cDep1 ["m"]) cDep1.id =
      some { Dependency :=
               { Id := cDep1.id, Scopes := appendScopes [] cDep1.getScopes,
                 RequestedBy := [["m"]], Md5 := "", Sha1 := "", Sha256 := "" },
             npmLsDependency := cDep1 } :=
  ⟨rfl, appendDependency_frame.1 [] cDep1 ["m"] rfl⟩

/-! ### Claim C3 -/

theorem getScopes_eq (d : npmLsDependency) :
    d.getScopes = (if d.Dev then ["dev"] else ["prod"]) ++
      (if goHasPfx d.Name "@" = true then
        (if (goSplit d.Name '/').length > 2 then [(goSplit d.Name '/').headD ""] else [])
       else []) := by
  unfold npmLsDependency.getScopes
  dsimp only
  split <;> split <;> try split
  all_goals rfl

theorem getScopes_shape (d : npmLsDependency) :
    ∃ rest, d.getScopes = (if d.Dev then ["dev"] else ["prod"]) ++ rest :=
  ⟨_, getScopes_eq d⟩

theorem getScopes_has_base (d : npmLsDependency) :
    (d.Dev = true → "dev" ∈ d.getScopes) ∧ (d.Dev = false → "prod" ∈ d.getScopes) := by
  obtain ⟨rest, hr⟩ := getScopes_shape d
  constructor <;> intro hDev <;> rw [hr] <;> simp [hDev]

theorem getScopes_mem_cases {s : String} {d : npmLsDependency} (h : s ∈ d.getScopes) :
    s = "dev" ∨ s = "prod" ∨
      (goHasPfx d.Name "@" = true ∧ 2 < (goSplit d.Name '/').length ∧
        s = (goSplit d.Name '/').headD "") := by
  simp only [npmLsDependency.getScopes] at h
  by_cases hp : goHasPfx d.Name "@" = true
  · rw [if_pos hp] at h
    by_cases hl : (goSplit d.Name '/').length > 2
    · rw [if_pos hl] at h
      rcases List.mem_append.mp h with h1 | h1
      · split at h1 <;> simp only [List.mem_singleton] at h1 <;> [exact Or.inl h1; exact Or.inr (Or.inl h1)]
      · exact Or.inr (Or.inr ⟨hp, hl, by simpa using h1⟩)
    · rw [if_neg hl] at h
      split at h <;> simp only [List.mem_singleton] at h <;> [exact Or.inl h; exact Or.inr (Or.inl h)]
  · rw [if_neg hp] at h
    split at h <;> simp only [List.mem_singleton] at h <;> [exact Or.inl h; exact Or.inr (Or.inl h)]

def cDevRec : npmLsDependency :=
  { Name := "x", Version := "1", Integrity := "", InBundle := false, Dev := true,
    Optional := false, Missing := false, Problems := none, PeerMissing := none }

def cProdRec : npmLsDependency := { cDevRec with Dev := false }

def cTree3 : List (String × NpmNode) :=
  [("a", NpmNode.node cDevRec []), ("b", NpmNode.node cProdRec [])]

def cDi3 : dependencyInfo :=
  { Dependency :=
      { Id := "x:1", Scopes := ["dev", "prod"], RequestedBy := [["mod"], ["mod"]],
        Md5 := "", Sha1 := "", Sha256 := "" },
    npmLsDependency := cDevRec }

/-- C3 counterexample: a tree containing the same id once with the dev flag
and once without it produces a canonical entry whose scopes list contains
both dev and prod, contradicting the claim that exactly one of the two
labels occurs. -/
theorem scopes_dev_and_prod_counterexample :
    parseDependencies cTree3 ["mod"] [] = Except.ok [("x:1", cDi3)] ∧
    "dev" ∈ cDi3.Dependency.Scopes ∧ "prod" ∈ cDi3.Dependency.Scopes := by
  refine ⟨?_, by decide, by decide⟩
  show parseDependencies [("a", NpmNode.node cDevRec []), ("b", NpmNode.node cProdRec [])]
    ["mod"] [] = _
  rw [parseDependencies_node_ok "a" [] [("b", NpmNode.node cProdRec [])] ["mod"] [] _
      (by decide) (parseDependencies_nil _ _),
    parseDependencies_node_ok "b" [] [] ["mod"] _ _ (by decide) (parseDependencies_nil _ _),
    parseDependencies_nil]
  exact congrArg Except.ok (by decide)

/-- C3 amended: every scopes list of the canonical map is duplicate-free
and free of empty labels, contains at least one of dev and prod (both
exactly when occurrences with differing dev flags were merged), equals the
first-seen-order union of the scope labels of the occurrences of its id,
and every label other than dev and prod is a scope-group label: the
leading segment of the at-prefixed, more-than-two-segment name of some
occurrence of that id. -/
theorem parseDependencies_scopes_characterization :
    ∀ (entries : List (String × NpmNode)) (path : List String) (m : DepMap) (key : String)
      (di : dependencyInfo),
      parseDependencies entries path [] = Except.ok m →
      mapLookup m key = some di →
      di.Dependency.Scopes.Nodup ∧ "" ∉ di.Dependency.Scopes ∧
      ("dev" ∈ di.Dependency.Scopes ∨ "prod" ∈ di.Dependency.Scopes) ∧
      (∃ l, collectOccs entries path = Except.ok l ∧
        di.Dependency.Scopes =
          ((occsFor key l).map (fun o => o.1.getScopes)).foldl appendScopes []) ∧
      (∀ s ∈ di.Dependency.Scopes, s = "dev" ∨ s = "prod" ∨
        ∃ l d pr, collectOccs entries path = Except.ok l ∧ (d, pr) ∈ l ∧ d.id = key ∧
          goHasPfx d.Name "@" = true ∧ 2 < (goSplit d.Name '/').length ∧
          s = (goSplit d.Name '/').headD "") := by
  intro entries path m key di hp hl
  rw [parseDependencies_eq_fold entries path []] at hp
  cases hc : collectOccs entries path with
  | error e => rw [hc] at hp; exact absurd hp (by simp [Except.map])
  | ok l =>
      rw [hc] at hp
      have hm : l.foldl depStep [] = m := by
        simpa [Except.map] using hp
      subst hm
      obtain ⟨d0, p0, t, hocc, -, -, -, -, -, hsc, -⟩ := foldl_depStep_entry_spec l key di hl
      have hnorm : NormalScopes di.Dependency.Scopes := by
        rw [hsc]
        exact normalScopes_foldl _ ⟨List.nodup_nil, by simp⟩
      have hmemiff : ∀ x, x ∈ di.Dependency.Scopes ↔
          ¬ x = "" ∧ ∃ o ∈ (d0, p0) :: t, x ∈ o.1.getScopes := by
        intro x
        rw [hsc, scopesAccum_mem (by simp)]
        simp only [List.mem_map, List.not_mem_nil, false_or]
        constructor
        · rintro ⟨hne, g, ⟨o, ho, rfl⟩, hx⟩
          exact ⟨hne, o, ho, hx⟩
        · rintro ⟨hne, o, ho, hx⟩
          exact ⟨hne, o.1.getScopes, ⟨o, ho, rfl⟩, hx⟩
      refine ⟨hnorm.1, hnorm.2, ?_, ⟨l, rfl, by rw [hsc, hocc]⟩, ?_⟩
      · cases hDev : d0.Dev with
        | true =>
            left
            exact (hmemiff "dev").mpr ⟨by decide, (d0, p0), List.mem_cons_self _ _,
              (getScopes_has_base d0).1 hDev⟩
        | false =>
            right
            exact (hmemiff "prod").mpr ⟨by decide, (d0, p0), List.mem_cons_self _ _,
              (getScopes_has_base d0).2 hDev⟩
      · intro s hs
        obtain ⟨hne, o, ho, hsg⟩ := (hmemiff s).mp hs
        rcases getScopes_mem_cases hsg with h1 | h1 | ⟨hpfx, hlen, hval⟩
        · exact Or.inl h1
        · exact Or.inr (Or.inl h1)
        · refine Or.inr (Or.inr ⟨l, o.1, o.2, rfl, ?_, ?_, hpfx, hlen, hval⟩)
          · have := (mem_of_mem_occsFor (hocc ▸ ho)).1
            simpa using this
          · exact (mem_of_mem_occsFor (hocc ▸ ho)).2

def cNld3 : npmLsDependency :=
  { Name := "@o/s/p", Version := "1", Integrity := "", InBundle := false, Dev := false,
    Optional := false, Missing := false, Problems := none, PeerMissing := none }

def cDi3w : dependencyInfo :=
  { Dependency :=
      { Id := "@o/s/p:1", Scopes := ["prod", "@o"], RequestedBy := [["mod"]],
        Md5 := "", Sha1 := "", Sha256 := "" },
    npmLsDependency := cNld3 }

theorem parseDependencies_scopes_characterization_witness :
    cDi3w.Dependency.Scopes.Nodup ∧ "" ∉ cDi3w.Dependency.Scopes ∧
    ("dev" ∈ cDi3w.Dependency.Scopes ∨ "prod" ∈ cDi3w.Dependency.Scopes) ∧
    (∃ l, collectOccs [("s", NpmNode.node cNld3 [])] ["mod"] = Except.ok l ∧
      cDi3w.Dependency.Scopes =
        ((occsFor "@o/s/p:1" l).map (fun o => o.1.getScopes)).foldl appendScopes []) ∧
    (∀ s ∈ cDi3w.Dependency.Scopes, s = "dev" ∨ s = "prod" ∨
      ∃ l d pr, collectOccs [("s", NpmNode.node cNld3 [])] ["mod"] = Except.ok l ∧
        (d, pr) ∈ l ∧ d.id = "@o/s/p:1" ∧
        goHasPfx d.Name "@" = true ∧ 2 < (goSplit d.Name '/').length ∧
        s = (goSplit d.Name '/').headD "") :=
  parseDependencies_scopes_characterization [("s", NpmNode.node cNld3 [])] ["mod"]
    [(cNld3.id, cDi3w)] "@o/s/p:1" cDi3w
    (by
      rw [parseDependencies_node_ok "s" [] [] ["mod"] [] _ (by decide)
          (parseDependencies_nil _ _), parseDependencies_nil]
      exact congrArg Except.ok (by decide))
    (by decide)

/-! ### Claim C7 -/

/-- C7: walking the same tree a second time into the map produced by the
first walk succeeds with the same key list and, per id, the same scopes
and checksums, while the requestedBy list becomes the first walk's list
repeated twice, hence exactly doubled in length. -/
theorem parseDependencies_idempotent_merge :
    ∀ (entries : List (String × NpmNode)) (path : List String) (m1 : DepMap),
      parseDependencies entries path [] = Except.ok m1 →
      ∃ m2, parseDependencies entries path m1 = Except.ok m2 ∧
        keys m2 = keys m1 ∧
        (∀ key di1, mapLookup m1 key = some di1 →
          ∃ di2, mapLookup m2 key = some di2 ∧
            di2.Dependency.Scopes = di1.Dependency.Scopes ∧
            di2.Dependency.Md5 = di1.Dependency.Md5 ∧
            di2.Dependency.Sha1 = di1.Dependency.Sha1 ∧
            di2.Dependency.Sha256 = di1.Dependency.Sha256 ∧
            di2.Dependency.RequestedBy =
              di1.Dependency.RequestedBy ++ di1.Dependency.RequestedBy ∧
            di2.Dependency.RequestedBy.length = 2 * di1.Dependency.RequestedBy.length) := by
  intro entries path m1 hp
  rw [parseDependencies_eq_fold entries path []] at hp
  cases hc : collectOccs entries path with
  | error e => rw [hc] at hp; exact absurd hp (by simp [Except.map])
  | ok l =>
      rw [hc] at hp
      have hm1 : l.foldl depStep [] = m1 := by simpa [Except.map] using hp
      have hkeys_mem : ∀ o ∈ l, o.1.id ∈ keys m1 := by
        intro o ho
        rw [← hm1, ← mapLookup_isSome_iff, mapLookup_foldl_depStep_nil]
        cases hocc : occsFor o.1.id l with
        | nil => exact absurd (hocc ▸ mem_occsFor_self ho) (List.not_mem_nil o)
        | cons x t =>
            rw [mergeMany_none_cons]
            obtain ⟨di2, hm2, -⟩ := mergeMany_some_spec t (mergeInto (freshEntry x.1) x.1 x.2)
            rw [hm2]
            rfl
      refine ⟨l.foldl depStep m1, ?_, ?_, ?_⟩
      · rw [parseDependencies_eq_fold entries path m1, hc]
        rfl
      · rw [← hm1]
        exact keys_foldl_depStep (fun o ho => hm1 ▸ hkeys_mem o ho)
      · intro key di1 hl1
        obtain ⟨d0, p0, t, hocc, -, -, -, -, hrb1, hsc1, -⟩ :=
          foldl_depStep_entry_spec l key di1 (hm1 ▸ hl1)
        obtain ⟨di2, hm2, hid, hmd5, hsh1, hsh256, hrb, hsc, -⟩ :=
          mergeMany_some_spec (occsFor key l) di1
        have hl2 : mapLookup (l.foldl depStep m1) key = some di2 := by
          rw [mapLookup_foldl_depStep l m1 key, hl1, hm2]
        have hnorm1 : NormalScopes di1.Dependency.Scopes := by
          rw [hsc1]
          exact normalScopes_foldl _ ⟨List.nodup_nil, by simp⟩
        have hscopes : di2.Dependency.Scopes = di1.Dependency.Scopes := by
          rw [hsc, hocc]
          refine foldl_appendScopes_absorb hnorm1 ?_
          intro g hg x hx hne
          rw [hsc1, scopesAccum_mem (by simp)]
          exact Or.inr ⟨hne, g, hocc ▸ hg, hx⟩
        have hrb2 : di2.Dependency.RequestedBy =
            di1.Dependency.RequestedBy ++ di1.Dependency.RequestedBy := by
          rw [hrb, hrb1, hocc]
        refine ⟨di2, hl2, hscopes, hmd5, hsh1, hsh256, hrb2, ?_⟩
        rw [hrb2, List.length_append, two_mul]

def cDi7 : dependencyInfo :=
  { Dependency :=
      { Id := "a:1", Scopes := ["prod"], RequestedBy := [["mod"]],
        Md5 := "", Sha1 := "", Sha256 := "" },
    npmLsDependency := cDep1 }

theorem parseDependencies_idempotent_merge_witness :
    ∃ m2, parseDependencies [("a", NpmNode.node cDep1 [])] ["mod"] [("a:1", cDi7)] =
        Except.ok m2 ∧
      keys m2 = keys [("a:1", cDi7)] ∧
      (∀ key di1, mapLookup [("a:1", cDi7)] key = some di1 →
        ∃ di2, mapLookup m2 key = some di2 ∧
          di2.Dependency.Scopes = di1.Dependency.Scopes ∧
          di2.Dependency.Md5 = di1.Dependency.Md5 ∧
          di2.Dependency.Sha1 = di1.Dependency.Sha1 ∧
          di2.Dependency.Sha256 = di1.Dependency.Sha256 ∧
          di2.Dependency.RequestedBy =
            di1.Dependency.RequestedBy ++ di1.Dependency.RequestedBy ∧
          di2.Dependency.RequestedBy.length = 2 * di1.Dependency.RequestedBy.length) :=
  parseDependencies_idempotent_merge [("a", NpmNode.node cDep1 [])] ["mod"] [("a:1", cDi7)]
    (by
      rw [parseDependencies_node_ok "a" [] [] ["mod"] [] _ (by decide)
          (parseDependencies_nil _ _), parseDependencies_nil]
      exact congrArg Except.ok (by decide))

/-! ### Claim C2: assembler partition machinery -/

def addResults (r1 r2 : NpmDepsResult) : NpmDepsResult :=
  { dependenciesList := r1.dependenciesList ++ r2.dependenciesList
    missingPeerDeps := r1.missingPeerDeps ++ r2.missingPeerDeps
    missingBundledDeps := r1.missingBundledDeps ++ r2.missingBundledDeps
    missingOptionalDeps := r1.missingOptionalDeps ++ r2.missingOptionalDeps
    otherMissingDeps := r1.otherMissingDeps ++ r2.otherMissingDeps }

theorem addResults_empty_left (r : NpmDepsResult) : addResults emptyNpmDepsResult r = r := rfl

theorem addResults_empty_right (r : NpmDepsResult) : addResults r emptyNpmDepsResult = r := by
  obtain ⟨a, b, c, d, e⟩ := r
  simp [addResults, emptyNpmDepsResult]

theorem npmDepStep_add (calcCs : Bool) (c : cacache)
    (hf : String → Except String (String × String × String)) (a r : NpmDepsResult)
    (d : dependencyInfo) :
    npmDepStep calcCs c hf (addResults a r) d = addResults a (npmDepStep calcCs c hf r d) := by
  unfold npmDepStep
  split
  · simp [addResults, List.append_assoc]
  · split
    · simp [addResults, List.append_assoc]
    · split
      · split
        · split
          · simp [addResults, List.append_assoc]
          · simp [addResults, List.append_assoc]
        · simp [addResults, List.append_assoc]
      · simp [addResults, List.append_assoc]

theorem foldl_npmDepStep_add (calcCs : Bool) (c : cacache)
    (hf : String → Except String (String × String × String)) (deps : List dependencyInfo)
    (a r : NpmDepsResult) :
    deps.foldl (npmDepStep calcCs c hf) (addResults a r) =
      addResults a (deps.foldl (npmDepStep calcCs c hf) r) := by
  induction deps generalizing r with
  | nil => rfl
  | cons d t ih => rw [List.foldl_cons, npmDepStep_add, ih, List.foldl_cons]

theorem calcList_split (calcCs : Bool) (c : cacache)
    (hf : String → Except String (String × String × String)) (l1 l2 : List dependencyInfo)
    (d : dependencyInfo) :
    CalculateNpmDependenciesList calcCs c hf (l1 ++ d :: l2) =
      addResults (CalculateNpmDependenciesList calcCs c hf l1)
        (addResults (npmDepStep calcCs c hf emptyNpmDepsResult d)
          (CalculateNpmDependenciesList calcCs c hf l2)) := by
  unfold CalculateNpmDependenciesList
  rw [List.foldl_append, List.foldl_cons]
  have h1 : npmDepStep calcCs c hf (List.foldl (npmDepStep calcCs c hf) emptyNpmDepsResult l1) d
      = addResults (List.foldl (npmDepStep calcCs c hf) emptyNpmDepsResult l1)
          (npmDepStep calcCs c hf emptyNpmDepsResult d) := by
    conv_lhs =>
      rw [← addResults_empty_right (List.foldl (npmDepStep calcCs c hf) emptyNpmDepsResult l1)]
    rw [npmDepStep_add]
  rw [h1, foldl_npmDepStep_add]
  have h2 : List.foldl (npmDepStep calcCs c hf) (npmDepStep calcCs c hf emptyNpmDepsResult d) l2
      = addResults (npmDepStep calcCs c hf emptyNpmDepsResult d)
          (List.foldl (npmDepStep calcCs c hf) emptyNpmDepsResult l2) := by
    conv_lhs =>
      rw [← addResults_empty_right (npmDepStep calcCs c hf emptyNpmDepsResult d)]
    rw [foldl_npmDepStep_add]
  rw [h2]

/-- The total number of times an id is routed anywhere by the assembler. -/
def totalCount (x : String) (r : NpmDepsResult) : Nat :=
  r.missingBundledDeps.count x + r.missingPeerDeps.count x + r.missingOptionalDeps.count x +
    r.otherMissingDeps.count x + (r.dependenciesList.map (fun e => e.Id)).count x

theorem totalCount_add (x : String) (r1 r2 : NpmDepsResult) :
    totalCount x (addResults r1 r2) = totalCount x r1 + totalCount x r2 := by
  simp [totalCount, addResults, List.count_append]
  ring

theorem count_ite_comm (a b : String) : (if a = b then 1 else 0) = if b = a then (1 : Nat) else 0 := by
  by_cases h : a = b
  · simp [h]
  · have h2 : ¬ b = a := fun hh => h hh.symm
    simp [h, h2]

theorem totalCount_step_empty (calcCs : Bool) (c : cacache)
    (hf : String → Except String (String × String × String)) (x : String)
    (d : dependencyInfo) :
    totalCount x (npmDepStep calcCs c hf emptyNpmDepsResult d) =
      if x = d.Dependency.Id then 1 else 0 := by
  unfold npmDepStep
  split
  · simp only [totalCount, emptyNpmDepsResult]
    simp [List.count_cons, List.count_nil, count_ite_comm]
  · split
    · simp only [totalCount, emptyNpmDepsResult]
      simp [List.count_cons, List.count_nil, count_ite_comm]
    · split
      · split
        · split
          · simp only [totalCount, emptyNpmDepsResult]
            simp [List.count_cons, List.count_nil, count_ite_comm]
          · simp only [totalCount, emptyNpmDepsResult]
            simp [List.count_cons, List.count_nil, count_ite_comm]
        · simp only [totalCount, emptyNpmDepsResult]
          simp [List.count_cons, List.count_nil, count_ite_comm]
      · simp only [totalCount, emptyNpmDepsResult]
        simp [List.count_cons, List.count_nil, count_ite_comm]

theorem totalCount_fold (calcCs : Bool) (c : cacache)
    (hf : String → Except String (String × String × String)) (x : String)
    (deps : List dependencyInfo) :
    totalCount x (CalculateNpmDependenciesList calcCs c hf deps) =
      (deps.map (fun d => d.Dependency.Id)).count x := by
  unfold CalculateNpmDependenciesList
  induction deps with
  | nil => simp [totalCount, emptyNpmDepsResult]
  | cons d t ih =>
      rw [List.foldl_cons]
      have h1 : List.foldl (npmDepStep calcCs c hf) (npmDepStep calcCs c hf emptyNpmDepsResult d) t
          = addResults (npmDepStep calcCs c hf emptyNpmDepsResult d)
              (List.foldl (npmDepStep calcCs c hf) emptyNpmDepsResult t) := by
        conv_lhs =>
          rw [← addResults_empty_right (npmDepStep calcCs c hf emptyNpmDepsResult d)]
        rw [foldl_npmDepStep_add]
      rw [h1, totalCount_add, totalCount_step_empty, ih, List.map_cons, List.count_cons]
      by_cases hx : x = d.Dependency.Id
      · simp [hx]
        omega
      · simp [hx]
        exact fun hh => hx hh.symm

theorem npmDepStep_empty_bundled (calcCs : Bool) (c : cacache)
    (hf : String → Except String (String × String × String)) (d : dependencyInfo)
    (h1 : d.npmLsDependency.Integrity = "") (h2 : d.npmLsDependency.InBundle = true) :
    npmDepStep calcCs c hf emptyNpmDepsResult d =
      { emptyNpmDepsResult with missingBundledDeps := [d.Dependency.Id] } := by
  unfold npmDepStep
  rw [if_pos ⟨h1, h2⟩]
  rfl

theorem npmDepStep_empty_peer (calcCs : Bool) (c : cacache)
    (hf : String → Except String (String × String × String)) (d : dependencyInfo)
    (hn1 : ¬ (d.npmLsDependency.Integrity = "" ∧ d.npmLsDependency.InBundle = true))
    (h1 : d.npmLsDependency.Integrity = "") (h2 : d.npmLsDependency.PeerMissing.isSome = true) :
    npmDepStep calcCs c hf emptyNpmDepsResult d =
      { emptyNpmDepsResult with missingPeerDeps := [d.Dependency.Id] } := by
  unfold npmDepStep
  rw [if_neg hn1, if_pos ⟨h1, h2⟩]
  rfl

theorem npmDepStep_empty_opt (calcCs : Bool) (c : cacache)
    (hf : String → Except String (String × String × String)) (d : dependencyInfo)
    (hn1 : ¬ (d.npmLsDependency.Integrity = "" ∧ d.npmLsDependency.InBundle = true))
    (hn2 : ¬ (d.npmLsDependency.Integrity = "" ∧ d.npmLsDependency.PeerMissing.isSome = true))
    (hcalc : calcCs = true) (e : String)
    (herr : calculateChecksum c hf d.npmLsDependency.Name d.npmLsDependency.Version
      d.npmLsDependency.Integrity = Except.error e)
    (hopt : d.npmLsDependency.Optional = true) :
    npmDepStep calcCs c hf emptyNpmDepsResult d =
      { emptyNpmDepsResult with missingOptionalDeps := [d.Dependency.Id] } := by
  unfold npmDepStep
  rw [if_neg hn1, if_neg hn2, if_pos hcalc]
  split
  · rw [if_pos hopt]
    rfl
  · next cs heq => rw [herr] at heq; exact Except.noConfusion heq

theorem npmDepStep_empty_other (calcCs : Bool) (c : cacache)
    (hf : String → Except String (String × String × String)) (d : dependencyInfo)
    (hn1 : ¬ (d.npmLsDependency.Integrity = "" ∧ d.npmLsDependency.InBundle = true))
    (hn2 : ¬ (d.npmLsDependency.Integrity = "" ∧ d.npmLsDependency.PeerMissing.isSome = true))
    (hcalc : calcCs = true) (e : String)
    (herr : calculateChecksum c hf d.npmLsDependency.Name d.npmLsDependency.Version
      d.npmLsDependency.Integrity = Except.error e)
    (hopt : d.npmLsDependency.Optional = false) :
    npmDepStep calcCs c hf emptyNpmDepsResult d =
      { emptyNpmDepsResult with otherMissingDeps := [d.Dependency.Id] } := by
  unfold npmDepStep
  rw [if_neg hn1, if_neg hn2, if_pos hcalc]
  split
  · rw [if_neg (by simp [hopt])]
    rfl
  · next cs heq => rw [herr] at heq; exact Except.noConfusion heq

theorem npmDepStep_empty_ok (calcCs : Bool) (c : cacache)
    (hf : String → Except String (String × String × String)) (d : dependencyInfo)
    (hn1 : ¬ (d.npmLsDependency.Integrity = "" ∧ d.npmLsDependency.InBundle = true))
    (hn2 : ¬ (d.npmLsDependency.Integrity = "" ∧ d.npmLsDependency.PeerMissing.isSome = true))
    (hcalc : calcCs = true) (cs : String × String × String)
    (hok : calculateChecksum c hf d.npmLsDependency.Name d.npmLsDependency.Version
      d.npmLsDependency.Integrity = Except.ok cs) :
    npmDepStep calcCs c hf emptyNpmDepsResult d =
      { emptyNpmDepsResult with dependenciesList :=
          [{ d.Dependency with Md5 := cs.1, Sha1 := cs.2.1, Sha256 := cs.2.2 }] } := by
  unfold npmDepStep
  rw [if_neg hn1, if_neg hn2, if_pos hcalc]
  split
  · next e heq => rw [hok] at heq; exact Except.noConfusion heq
  · next cs2 heq =>
      rw [hok] at heq
      obtain rfl : cs = cs2 := by injection heq
      rfl

theorem npmDepStep_empty_nocalc (calcCs : Bool) (c : cacache)
    (hf : String → Except String (String × String × String)) (d : dependencyInfo)
    (hn1 : ¬ (d.npmLsDependency.Integrity = "" ∧ d.npmLsDependency.InBundle = true))
    (hn2 : ¬ (d.npmLsDependency.Integrity = "" ∧ d.npmLsDependency.PeerMissing.isSome = true))
    (hcalc : calcCs = false) :
    npmDepStep calcCs c hf emptyNpmDepsResult d =
      { emptyNpmDepsResult with dependenciesList := [d.Dependency] } := by
  unfold npmDepStep
  rw [if_neg hn1, if_neg hn2, if_neg (by simp [hcalc])]
  rfl

/-- C2: the assembler routes every canonical-map entry to exactly one
destination by the rule cascade in order (first match wins): empty digest
and bundled to the missing-bundled bucket; empty digest and a peer-missing
marker to the missing-peer bucket; requested checksum calculation failing
to the missing-optional or other-missing bucket according to the optional
flag; otherwise the final list. In total each entry is counted exactly
once across the five destinations, and with pairwise distinct ids the four
buckets and the final list are pairwise disjoint. -/
theorem CalculateNpmDependenciesList_partition (calcCs : Bool) (c : cacache)
    (hf : String → Except String (String × String × String)) (deps : List dependencyInfo) :
    (∀ x : String, totalCount x (CalculateNpmDependenciesList calcCs c hf deps) =
      (deps.map (fun d => d.Dependency.Id)).count x) ∧
    (∀ d ∈ deps,
      (d.npmLsDependency.Integrity = "" → d.npmLsDependency.InBundle = true →
        d.Dependency.Id ∈ (CalculateNpmDependenciesList calcCs c hf deps).missingBundledDeps) ∧
      (d.npmLsDependency.Integrity = "" → d.npmLsDependency.InBundle = false →
        d.npmLsDependency.PeerMissing.isSome = true →
        d.Dependency.Id ∈ (CalculateNpmDependenciesList calcCs c hf deps).missingPeerDeps) ∧
      (¬ (d.npmLsDependency.Integrity = "" ∧ d.npmLsDependency.InBundle = true) →
       ¬ (d.npmLsDependency.Integrity = "" ∧ d.npmLsDependency.PeerMissing.isSome = true) →
       calcCs = true →
       ∀ e, calculateChecksum c hf d.npmLsDependency.Name d.npmLsDependency.Version
          d.npmLsDependency.Integrity = Except.error e →
        (d.npmLsDependency.Optional = true → d.Dependency.Id ∈
          (CalculateNpmDependenciesList calcCs c hf deps).missingOptionalDeps) ∧
        (d.npmLsDependency.Optional = false → d.Dependency.Id ∈
          (CalculateNpmDependenciesList calcCs c hf deps).otherMissingDeps)) ∧
      (¬ (d.npmLsDependency.Integrity = "" ∧ d.npmLsDependency.InBundle = true) →
       ¬ (d.npmLsDependency.Integrity = "" ∧ d.npmLsDependency.PeerMissing.isSome = true) →
       calcCs = true →
       ∀ cs, calculateChecksum c hf d.npmLsDependency.Name d.npmLsDependency.Version
          d.npmLsDependency.Integrity = Except.ok cs →
        { d.Dependency with Md5 := cs.1, Sha1 := cs.2.1, Sha256 := cs.2.2 } ∈
          (CalculateNpmDependenciesList calcCs c hf deps).dependenciesList) ∧
      (¬ (d.npmLsDependency.Integrity = "" ∧ d.npmLsDependency.InBundle = true) →
       ¬ (d.npmLsDependency.Integrity = "" ∧ d.npmLsDependency.PeerMissing.isSome = true) →
       calcCs = false →
        d.Dependency ∈ (CalculateNpmDependenciesList calcCs c hf deps).dependenciesList)) ∧
    ((deps.map (fun d => d.Dependency.Id)).Nodup →
      (CalculateNpmDependenciesList calcCs c hf deps).missingBundledDeps.Disjoint
        (CalculateNpmDependenciesList calcCs c hf deps).missingPeerDeps ∧
      (CalculateNpmDependenciesList calcCs c hf deps).missingBundledDeps.Disjoint
        (CalculateNpmDependenciesList calcCs c hf deps).missingOptionalDeps ∧
      (CalculateNpmDependenciesList calcCs c hf deps).missingBundledDeps.Disjoint
        (CalculateNpmDependenciesList calcCs c hf deps).otherMissingDeps ∧
      (CalculateNpmDependenciesList calcCs c hf deps).missingBundledDeps.Disjoint
        ((CalculateNpmDependenciesList calcCs c hf deps).dependenciesList.map (fun e => e.Id)) ∧
      (CalculateNpmDependenciesList calcCs c hf deps).missingPeerDeps.Disjoint
        (CalculateNpmDependenciesList calcCs c hf deps).missingOptionalDeps ∧
      (CalculateNpmDependenciesList calcCs c hf deps).missingPeerDeps.Disjoint
        (CalculateNpmDependenciesList calcCs c hf deps).otherMissingDeps ∧
      (CalculateNpmDependenciesList calcCs c hf deps).missingPeerDeps.Disjoint
        ((CalculateNpmDependenciesList calcCs c hf deps).dependenciesList.map (fun e => e.Id)) ∧
      (CalculateNpmDependenciesList calcCs c hf deps).missingOptionalDeps.Disjoint
        (CalculateNpmDependenciesList calcCs c hf deps).otherMissingDeps ∧
      (CalculateNpmDependenciesList calcCs c hf deps).missingOptionalDeps.Disjoint
        ((CalculateNpmDependenciesList calcCs c hf deps).dependenciesList.map (fun e => e.Id)) ∧
      (CalculateNpmDependenciesList calcCs c hf deps).otherMissingDeps.Disjoint
        ((CalculateNpmDependenciesList calcCs c hf deps).dependenciesList.map (fun e => e.Id))) := by
  refine ⟨fun x => totalCount_fold calcCs c hf x deps, ?_, ?_⟩
  · intro d hd
    obtain ⟨l1, l2, rfl⟩ := List.append_of_mem hd
    refine ⟨?_, ?_, ?_, ?_, ?_⟩
    · intro h1 h2
      rw [calcList_split, npmDepStep_empty_bundled calcCs c hf d h1 h2]
      simp [addResults]
    · intro h1 hb hp
      have hn1 : ¬ (d.npmLsDependency.Integrity = "" ∧ d.npmLsDependency.InBundle = true) := by
        rintro ⟨-, hbt⟩
        rw [hb] at hbt
        exact Bool.noConfusion hbt
      rw [calcList_split, npmDepStep_empty_peer calcCs c hf d hn1 h1 hp]
      simp [addResults]
    · intro hn1 hn2 hcalc e herr
      constructor
      · intro hopt
        rw [calcList_split, npmDepStep_empty_opt calcCs c hf d hn1 hn2 hcalc e herr hopt]
        simp [addResults]
      · intro hopt
        rw [calcList_split, npmDepStep_empty_other calcCs c hf d hn1 hn2 hcalc e herr hopt]
        simp [addResults]
    · intro hn1 hn2 hcalc cs hok
      rw [calcList_split, npmDepStep_empty_ok calcCs c hf d hn1 hn2 hcalc cs hok]
      simp [addResults]
    · intro hn1 hn2 hcalc
      rw [calcList_split, npmDepStep_empty_nocalc calcCs c hf d hn1 hn2 hcalc]
      simp [addResults]
  · intro hnd
    have hle : ∀ x, totalCount x (CalculateNpmDependenciesList calcCs c hf deps) ≤ 1 := by
      intro x
      rw [totalCount_fold]
      exact List.nodup_iff_count_le_one.mp hnd x
    have hdisj : ∀ (A B : List String),
        (∀ x, A.count x + B.count x ≤
          totalCount x (CalculateNpmDependenciesList calcCs c hf deps)) →
        A.Disjoint B := by
      intro A B hAB x hxA hxB
      have h1 : 0 < A.count x := List.count_pos_iff.mpr hxA
      have h2 : 0 < B.count x := List.count_pos_iff.mpr hxB
      have h3 := hAB x
      have h4 := hle x
      omega
    exact ⟨hdisj _ _ (fun x => by simp only [totalCount]; omega),
      hdisj _ _ (fun x => by simp only [totalCount]; omega),
      hdisj _ _ (fun x => by simp only [totalCount]; omega),
      hdisj _ _ (fun x => by simp only [totalCount]; omega),
      hdisj _ _ (fun x => by simp only [totalCount]; omega),
      hdisj _ _ (fun x => by simp only [totalCount]; omega),
      hdisj _ _ (fun x => by simp only [totalCount]; omega),
      hdisj _ _ (fun x => by simp only [totalCount]; omega),
      hdisj _ _ (fun x => by simp only [totalCount]; omega),
      hdisj _ _ (fun x => by simp only [totalCount]; omega)⟩

def cCache : cacache :=
  { GetInfo := fun _ => Except.error "nf", GetTarball := fun _ => Except.error "nf" }

def cHf : String → Except String (String × String × String) := fun _ => Except.error "nf"

def cD2a : dependencyInfo :=
  { Dependency :=
      { Id := "b:1", Scopes := [], RequestedBy := [], Md5 := "", Sha1 := "", Sha256 := "" },
    npmLsDependency :=
      { Name := "b", Version := "1", Integrity := "", InBundle := true, Dev := false,
        Optional := false, Missing := false, Problems := none, PeerMissing := none } }

theorem CalculateNpmDependenciesList_partition_witness :
    cD2a.Dependency.Id ∈
      (CalculateNpmDependenciesList false cCache cHf [cD2a]).missingBundledDeps :=
  ((CalculateNpmDependenciesList_partition false cCache cHf [cD2a]).2.1 cD2a
    (List.mem_singleton_self cD2a)).1 rfl rfl

end BuildInfoNpm
